import Mathlib

/-!
Verification development for `run_ndr_sdr_pipeline.py`.

The Python source is embedded shallowly: pure control flow becomes Lean
functions, the mutable dictionaries of the batching phase become
insertion-ordered association lists, the worker threads that consume a
queue become folds over the list of messages the queue delivers, and the
`try/except` blocks become explicit flags on the resulting state.
Geometry values (areas, coordinates, bounding boxes) are rationals.
-/

set_option autoImplicit false

namespace NdrSdr

section AssocMapDefs

variable {α : Type} {β : Type} [DecidableEq α]

/-- First value stored under key `a`, if any (Python `d[a]` lookup). -/
def alookup : List (α × β) → α → Option β
  | [], _ => none
  | (k, v) :: rest, a => if k = a then some v else alookup rest a

/-- Update the value under key `a` in place, or append a fresh entry at
the end (Python `d[a] = b`). -/
def aset : List (α × β) → α → β → List (α × β)
  | [], a, b => [(a, b)]
  | (k, v) :: rest, a, b =>
      if k = a then (a, b) :: rest else (k, v) :: aset rest a b

/-- Lookup with a default (Python `defaultdict` read). -/
def alookupD (m : List (α × β)) (a : α) (dflt : β) : β :=
  (alookup m a).getD dflt

end AssocMapDefs

/-- `N_TO_BUFFER_STITCH = 10` (module constant of the source). -/
def nToBufferStitch : Nat := 10

/-! ### `_clean_workspace_worker` (source lines 766–798)

The worker consumes directory paths from `stitch_done_queue`; `None`
terminates it.  Each path increments a `defaultdict(int)` counter; when
the counter equals `expected_signal_count` the directory is removed
(`shutil.rmtree`, skipped when `keep_intermediate_files`) and the
counter entry is deleted.  The whole loop sits inside
`try: ... except Exception: LOGGER.exception(...)`: a raised exception
(e.g. from `rmtree`) is logged, swallowed, and ends the worker.

The messages actually delivered before the terminating `None` are the
input list; `fails d = true` models `shutil.rmtree d` raising. -/

structure CleanState where
  countDict : List (String × Nat)
  deleted : List String
  /-- The worker stopped early because an exception escaped to the
  top-level `except` handler (which swallows it). -/
  aborted : Bool
  deriving Repr, DecidableEq

def cleanInit : CleanState := ⟨[], [], false⟩

/-- One `stitch_done_queue.get()` iteration of `_clean_workspace_worker`. -/
def cleanStep (expected : Nat) (keep : Bool) (fails : String → Bool)
    (s : CleanState) (dirPath : String) : CleanState :=
  let c := alookupD s.countDict dirPath 0 + 1
  let cd := aset s.countDict dirPath c
  if c = expected then
    if ¬keep then
      if fails dirPath then
        -- `shutil.rmtree` raised: caught by the top-level handler,
        -- worker returns; the counter entry was already written.
        { countDict := cd, deleted := s.deleted, aborted := true }
      else
        { countDict := (cd.filter (fun p => p.1 ≠ dirPath)),
          deleted := s.deleted ++ [dirPath], aborted := false }
    else
      { countDict := (cd.filter (fun p => p.1 ≠ dirPath)),
        deleted := s.deleted, aborted := false }
  else
    { countDict := cd, deleted := s.deleted, aborted := false }

/-- Run the worker over the delivered paths; processing stops if an
iteration aborts (the exception ends the `while True` loop). -/
def cleanRun (expected : Nat) (keep : Bool) (fails : String → Bool) :
    CleanState → List String → CleanState
  | s, [] => s
  | s, p :: rest =>
      if s.aborted then s
      else cleanRun expected keep fails (cleanStep expected keep fails s p) rest

/-- `_clean_workspace_worker` from the initial (empty) counter state. -/
def cleanWorkspaceWorker (expected : Nat) (keep : Bool)
    (fails : String → Bool) (msgs : List String) : CleanState :=
  cleanRun expected keep fails cleanInit msgs

/-- Number of occurrences of a path in the delivered message list. -/
def countOcc (a : String) : List String → Nat
  | [] => 0
  | b :: l => (if b = a then 1 else 0) + countOcc a l

/-- `shutil.rmtree` never raising. -/
def noFail : String → Bool := fun _ => false

/-- `shutil.rmtree` raising on directory `dir1` (e.g. permission denied). -/
def failsD1 : String → Bool := fun d => d = "dir1"

/-! ### `stitch_worker` (source lines 801–869)

The worker receives payloads from `rasters_to_stitch_queue`:
`(path, band)` is a raster to merge, `(None, 1)` means "skip this
raster" (geographic non-overlap), and `None` terminates the worker.
Items are buffered; once the buffer exceeds `N_TO_BUFFER_STITCH`, or on
the terminating `None`, the buffer is bulk-merged into the mosaic
(`geoprocessing.stitch_rasters`) and for every merged path the parent
directory is pushed once onto `signal_done_queue`. -/

inductive StitchPayload where
  /-- `(path, band)` — a raster produced by a finished batch. -/
  | item (path : String) (band : Nat)
  /-- `(None, 1)` — skip signal for a non-overlapping batch. -/
  | skipped
  /-- `None` — the run is over, flush and terminate. -/
  | close
  deriving Repr, DecidableEq

/-- `os.path.dirname`: everything before the last slash. -/
def dirname (p : String) : String :=
  String.mk (((p.toList.reverse.dropWhile (fun c => c ≠ '/')).drop 1).reverse)

structure StitchState where
  processed : Nat
  buffer : List (String × Nat)
  /-- The successive `stitch_rasters` calls, each with its buffer. -/
  flushes : List (List (String × Nat))
  /-- Directory paths pushed onto `signal_done_queue`, in order. -/
  acks : List String
  deriving Repr, DecidableEq

def stitchInit : StitchState := ⟨0, [], [], []⟩

/-- One bulk merge: `stitch_rasters` on the whole buffer, then one
`signal_done_queue.put(os.path.dirname(path))` per merged path, then
`stitch_buffer_list = []`. -/
def flushBuffer (s : StitchState) : StitchState :=
  { processed := s.processed,
    buffer := [],
    flushes := s.flushes ++ [s.buffer],
    acks := s.acks ++ s.buffer.map (fun pr => dirname pr.1) }

/-- The `while True` receive loop of `stitch_worker`. -/
def stitchWorker : StitchState → List StitchPayload → StitchState
  | s, [] => s
  | s, .close :: _ => flushBuffer s
  | s, .skipped :: rest =>
      stitchWorker { s with processed := s.processed + 1 } rest
  | s, .item path band :: rest =>
      let s1 := { s with buffer := s.buffer ++ [(path, band)] }
      let s2 :=
        if nToBufferStitch < s1.buffer.length then flushBuffer s1 else s1
      stitchWorker { s2 with processed := s2.processed + 1 } rest

/-- The `(path, band)` items of a payload list, in order. -/
def itemsOf : List StitchPayload → List (String × Nat)
  | [] => []
  | .item p b :: rest => (p, b) :: itemsOf rest
  | .skipped :: rest => itemsOf rest
  | .close :: rest => itemsOf rest

/-! ### Batch tasks: `_execute_sdr_job` and `_execute_ndr_job`

Each task is modelled by the trace of its observable effects: warp
calls, model invocation, and queue pushes.  `intersects` stands for the
result of `_watersheds_intersect(global_wgs84_bb, watersheds_path)`
(computed by the external `geoprocessing` collaborator). -/

inductive JobEvent where
  /-- First-stage `warp_raster` task: coarse clip to the batch envelope
  at native resolution. -/
  | warpClip (raster : String)
  /-- Second-stage `warp_raster` task: resample to the target pixel size
  and mask to the watershed vector. -/
  | warpMask (raster : String)
  /-- `sdr_c_factor.execute(args)` / `ndr_mfd_plus.execute(args)`. -/
  | modelExec
  /-- `stitch_queue.put((None, 1))` on the named output's channel. -/
  | putSkip (output : String)
  /-- `stitch_queue.put((path, 1))` on the named output's channel. -/
  | putItem (output : String) (path : String)
  /-- `sys.exit()`. -/
  | sysExit
  deriving Repr, DecidableEq

/-- `os.path.join` as used for the emitted result paths. -/
def pathJoin (a b : String) : String := a ++ "/" ++ b

/-- `_warp_raster_stack` (source lines 1151–1199): two `warp_raster`
tasks per raster, skipping `None` inputs. -/
def warpRasterStack : List (Option String) → List JobEvent
  | [] => []
  | none :: rest => warpRasterStack rest
  | some path :: rest =>
      JobEvent.warpClip path :: JobEvent.warpMask path :: warpRasterStack rest

/-- `_execute_sdr_job` (source lines 559–658).  On non-overlap: one skip
per output channel, return.  Otherwise: two-stage warp of
`[dem, erosivity, erodibility, lulc]`, `sdr_c_factor.execute`, then one
`(workspace_dir/local_result_path, 1)` push per output. -/
def executeSdrJob (intersects : Bool) (rasters : List (Option String))
    (outputs : List String) (workspaceDir : String) : List JobEvent :=
  if ¬intersects then
    outputs.map (fun o => JobEvent.putSkip o)
  else
    warpRasterStack rasters ++ [JobEvent.modelExec] ++
      outputs.map (fun o => JobEvent.putItem o (pathJoin workspaceDir o))

/-- `_execute_ndr_job` (source lines 661–763).  On non-overlap: one skip
per output channel, return.  Otherwise the function prints debug values
and reaches `sys.exit()` (line 733) before `_warp_raster_stack`, before
`ndr_mfd_plus.execute` and before any queue push. -/
def executeNdrJob (intersects : Bool) (rasters : List (Option String))
    (outputs : List String) (workspaceDir : String) : List JobEvent :=
  if ¬intersects then
    outputs.map (fun o => JobEvent.putSkip o)
  else
    [JobEvent.sysExit]

/-- The keys of `sdr_target_stitch_raster_map` (source lines 1071–1080):
the local result paths of the four declared SDR outputs. -/
def sdrOutputs : List String :=
  ["sed_export.tif", "sed_retention.tif", "sed_deposition.tif", "usle.tif"]

/-- The keys of `ndr_target_stitch_raster_map` (source lines 1082–1089). -/
def ndrOutputs : List String :=
  ["n_export.tif", "n_retention.tif",
   "intermediate_outputs/modified_load_n.tif"]

/-! ### Channels created by `_run_sdr` / `_run_ndr` -/

/-- `signal_done_queue = multiprocessing_manager.Queue()` (source lines
473 and 897): created with no maxsize, i.e. unbounded. -/
def signalDoneQueueCapacity : Option Nat := none

/-- `stitch_queue = multiprocessing_manager.Queue(N_TO_BUFFER_STITCH*2)`
(source lines 505 and 929): bounded. -/
def stitchQueueCapacity : Option Nat := some (nToBufferStitch * 2)

/-- The coordination channels one run creates, with their capacities:
the cleanup acknowledgment queue, then one stitch queue per declared
output. -/
def runChannelCapacities (outputs : List String) : List (Option Nat) :=
  signalDoneQueueCapacity :: outputs.map (fun _ => stitchQueueCapacity)

/-! ### `_batch_into_watershed_subsets` (source lines 226–368)

The batcher walks every feature of every `.shp` collection, assigns it
either to a singleton job (area above one square degree, or explicitly
selected) or to a `degree_separation`-sized grid-cell job with a
per-cell overflow counter, drops features whose envelope trips the
global-bounding-box boundary test, then emits every accumulated entry
that survives the small-batch filter, and finally sorts all emitted
`(area, batch)` descriptors by area, descending, across all
collections.

Modelling notes: job-id strings are represented structurally (the
string `f'{basename}_{fid}'` / `f'{basename}_{x}_{y}_{sub}_{epsg}'`
becomes a `JobKey` constructor, which is injective exactly when the
formatted strings are); `get_utm_zone` is the external collaborator
`utm`; the final Python sort compares `(area, path)` tuples — ties on
area are broken by the path string there and by insertion order here,
which no claim depends on. -/

/-- One watershed polygon feature: FID, area in square degrees,
centroid, and envelope in GDAL `GetEnvelope()` order
`(minX, maxX, minY, maxY)`. -/
structure Feature where
  fid : Nat
  area : ℚ
  cx : ℚ
  cy : ℚ
  minX : ℚ
  maxX : ℚ
  minY : ℚ
  maxY : ℚ
  deriving Repr, DecidableEq

/-- A bounding box in `[min_lng, min_lat, max_lng, max_lat]` order. -/
structure BBox where
  minLng : ℚ
  minLat : ℚ
  maxLng : ℚ
  maxLat : ℚ
  deriving Repr, DecidableEq

/-- `watershed_bb = [envelope[i] for i in [0, 2, 1, 3]]` (line 313). -/
def watershedBB (f : Feature) : BBox := ⟨f.minX, f.minY, f.maxX, f.maxY⟩

/-- The job-id of a batch (with its UTM zone). -/
inductive JobKey where
  /-- `(f'{watershed_basename}_{fid}', epsg)` — singleton job. -/
  | single (basename : String) (fid : Nat) (epsg : Int)
  /-- `(f'{basename}_{x}_{y}_{subIdx}_{epsg}', epsg)` — grid-cell job. -/
  | grid (basename : String) (x y : Int) (subIdx : Nat) (epsg : Int)
  deriving Repr, DecidableEq

/-- A `watershed_fid_index` accumulator value — the
`lambda: [list(), list(), 0]` default: FIDs to process, their lat/lng
bounding boxes, and the accumulated degree area. -/
structure Entry where
  fids : List Nat
  envs : List BBox
  area : ℚ
  deriving Repr, DecidableEq

def emptyEntry : Entry := ⟨[], [], 0⟩

/-- The mutable per-collection state: `subbatch_job_index_map` (keyed by
`base_job_id`, i.e. basename and cell) and `watershed_fid_index`. -/
structure CollState where
  subIdx : List ((String × Int × Int) × Nat)
  fidIndex : List (JobKey × Entry)
  deriving Repr, DecidableEq

def collInit : CollState := ⟨[], []⟩

/-- `watershed_fid_index[k]` — the defaultdict read. -/
def entryAt (m : List (JobKey × Entry)) (k : JobKey) : Entry :=
  (alookup m k).getD emptyEntry

/-- A defaultdict read also materialises a missing entry (in insertion
order); a following write to the same key absorbs this. -/
def touch (m : List (JobKey × Entry)) (k : JobKey) : List (JobKey × Entry) :=
  match alookup m k with
  | some _ => m
  | none => aset m k emptyEntry

/-- The boundary test of lines 314–317: the watershed bb reaches west or
east of the global bb, or lies entirely north or south of it
("is on a dangerous boundary so dropping"). -/
def onDangerousBoundary (g w : BBox) : Bool :=
  decide (w.minLng < g.minLng) || decide (w.maxLng > g.maxLng) ||
  decide (w.minLat > g.maxLat) || decide (w.maxLat < g.minLat)

/-- Bucket one feature (lines 288–311): singleton job for area above one
square degree or an explicit selection, grid-cell job otherwise, with
the per-cell overflow counter advanced once the current cell batch
already holds more than 1000 FIDs.  Returns the job key used and the
updated state. -/
def assignFid (ds : Int) (utm : ℚ → ℚ → Int) (basename : String)
    (selected : Bool) (s : CollState) (f : Feature) : JobKey × CollState :=
  let epsg := utm f.cx f.cy
  if 1 < f.area ∨ selected = true then
    let k := JobKey.single basename f.fid epsg
    (k, ⟨s.subIdx,
         aset s.fidIndex k { entryAt s.fidIndex k with fids := [f.fid] }⟩)
  else
    let x := Int.floor (f.cx / (ds : ℚ)) * ds
    let y := Int.floor (f.cy / (ds : ℚ)) * ds
    let base := (basename, x, y)
    let i := alookupD s.subIdx base 0
    let k0 := JobKey.grid basename x y i epsg
    let e0 := entryAt s.fidIndex k0
    if 1000 < e0.fids.length then
      let m1 := touch s.fidIndex k0
      let k1 := JobKey.grid basename x y (i + 1) epsg
      let e1 := entryAt m1 k1
      (k1, ⟨aset s.subIdx base (i + 1),
            aset m1 k1 { e1 with fids := e1.fids ++ [f.fid] }⟩)
    else
      (k0, ⟨s.subIdx,
            aset s.fidIndex k0 { e0 with fids := e0.fids ++ [f.fid] }⟩)

/-- Process one feature (lines 287–323): bucket its FID, then either
drop it at the global-bb boundary (`.pop()` the FID back off, keep the
envelope and area accumulators untouched) or append its bounding box
and add its area. -/
def processFeature (ds : Int) (utm : ℚ → ℚ → Int) (gbb : Option BBox)
    (basename : String) (selected : Bool) (s : CollState) (f : Feature) :
    CollState :=
  let ks := assignFid ds utm basename selected s f
  let k := ks.1
  let s1 := ks.2
  let wbb := watershedBB f
  let dropIt :=
    match gbb with
    | none => false
    | some g => onDangerousBoundary g wbb
  if dropIt then
    ⟨s1.subIdx,
     aset s1.fidIndex k
       { entryAt s1.fidIndex k with
         fids := (entryAt s1.fidIndex k).fids.dropLast }⟩
  else
    ⟨s1.subIdx,
     aset s1.fidIndex k
       { entryAt s1.fidIndex k with
         envs := (entryAt s1.fidIndex k).envs ++ [wbb],
         area := (entryAt s1.fidIndex k).area + f.area }⟩

/-- An emitted batch descriptor: the job key, the FIDs written into the
subset file, their envelopes, and the accumulated area (both encoded in
the subset filename `f'{job_id}_a{area:.3f}.gpkg'`). -/
structure Batch where
  key : JobKey
  fids : List Nat
  envs : List BBox
  area : ℚ
  deriving Repr, DecidableEq

/-- Iteration order of lines 332–335: `watershed_fid_index.items()`
sorted by accumulated area, descending. -/
def entryAreaGE (a b : JobKey × Entry) : Prop := b.2.area ≤ a.2.area

instance : DecidableRel entryAreaGE :=
  fun a b => inferInstanceAs (Decidable (b.2.area ≤ a.2.area))

instance : IsTotal (JobKey × Entry) entryAreaGE :=
  ⟨fun a b => le_total b.2.area a.2.area⟩

instance : IsTrans (JobKey × Entry) entryAreaGE :=
  ⟨fun _ _ _ hab hbc => le_trans hbc hab⟩

/-- The emission loop (lines 332–353): walk the sorted accumulator;
a repeated job id raises `ValueError` (modelled as `.error ()`); a batch
with fewer than 3 envelopes and area below the minimum is dropped; all
others join `job_id_set` and `watershed_path_area_list`. -/
def emitBatches (minArea : ℚ) :
    List (JobKey × Entry) → List JobKey →
    Except Unit (List JobKey × List (ℚ × Batch))
  | [], seen => .ok (seen, [])
  | (k, e) :: rest, seen =>
      if k ∈ seen then .error ()
      else if e.envs.length < 3 ∧ e.area < minArea then
        emitBatches minArea rest seen
      else
        match emitBatches minArea rest (seen ++ [k]) with
        | .error u => .error u
        | .ok (seen2, out) =>
            .ok (seen2, (e.area, ⟨k, e.fids, e.envs, e.area⟩) :: out)

/-- One source collection: the `.shp` basename and its features. -/
structure Collection where
  basename : String
  features : List Feature
  deriving Repr, DecidableEq

/-- Process one `.shp` collection (lines 263–356).  With a
`watershed_subset`, a basename not in the subset is skipped entirely,
and otherwise only the listed FIDs are iterated (in list order) with
singleton treatment forced. -/
def processCollection (ds : Int) (utm : ℚ → ℚ → Int) (gbb : Option BBox)
    (minArea : ℚ) (subset : Option (List (String × List Nat)))
    (coll : Collection) (seen : List JobKey) :
    Except Unit (List JobKey × List (ℚ × Batch)) :=
  match subset with
  | some submap =>
      match alookup submap coll.basename with
      | none => .ok (seen, [])
      | some fids =>
          let feats := fids.filterMap
            (fun fid => coll.features.find? (fun f => f.fid = fid))
          let s := feats.foldl
            (processFeature ds utm gbb coll.basename true) collInit
          emitBatches minArea (List.insertionSort entryAreaGE s.fidIndex) seen
  | none =>
      let s := coll.features.foldl
        (processFeature ds utm gbb coll.basename false) collInit
      emitBatches minArea (List.insertionSort entryAreaGE s.fidIndex) seen

/-- All collections in `glob` order, threading `job_id_set` and
accumulating `watershed_path_area_list`. -/
def processCollections (ds : Int) (utm : ℚ → ℚ → Int) (gbb : Option BBox)
    (minArea : ℚ) (subset : Option (List (String × List Nat))) :
    List Collection → List JobKey → Except Unit (List (ℚ × Batch))
  | [], _ => .ok []
  | coll :: rest, seen =>
      match processCollection ds utm gbb minArea subset coll seen with
      | .error u => .error u
      | .ok (seen2, out) =>
          match processCollections ds utm gbb minArea subset rest seen2 with
          | .error u => .error u
          | .ok out2 => .ok (out ++ out2)

/-- Final order of lines 366–367: `sorted(watershed_path_area_list,
reverse=True)`, area descending. -/
def pairAreaGE (a b : ℚ × Batch) : Prop := b.1 ≤ a.1

instance : DecidableRel pairAreaGE :=
  fun a b => inferInstanceAs (Decidable (b.1 ≤ a.1))

instance : IsTotal (ℚ × Batch) pairAreaGE := ⟨fun a b => le_total b.1 a.1⟩

instance : IsTrans (ℚ × Batch) pairAreaGE :=
  ⟨fun _ _ _ hab hbc => le_trans hbc hab⟩

/-- `_batch_into_watershed_subsets` (lines 226–368), minus the file I/O:
returns the emitted batches sorted by accumulated area, descending,
across all source collections. -/
def batchIntoWatershedSubsets (ds : Int) (utm : ℚ → ℚ → Int)
    (gbb : Option BBox) (minArea : ℚ)
    (subset : Option (List (String × List Nat)))
    (colls : List Collection) : Except Unit (List Batch) :=
  match processCollections ds utm gbb minArea subset colls [] with
  | .error u => .error u
  | .ok pairs => .ok ((List.insertionSort pairAreaGE pairs).map Prod.snd)

/-- The batch list of a successful run (a duplicate-job-id abort emits
nothing). -/
def emittedBatches (r : Except Unit (List Batch)) : List Batch :=
  match r with
  | .ok bs => bs
  | .error _ => []

/-- The invariant of the per-collection accumulator: every entry holds
at most 1001 FIDs (the overflow check fires only once a cell batch
already exceeds 1000), and a grid entry exists only up to its cell's
current subbatch counter. -/
def InvCS (s : CollState) : Prop :=
  (∀ k e, (k, e) ∈ s.fidIndex → e.fids.length ≤ 1001) ∧
  (∀ bn x y i epsg e, (JobKey.grid bn x y i epsg, e) ∈ s.fidIndex →
    i ≤ alookupD s.subIdx (bn, x, y) 0)

/-! ### Concrete runs

The batcher on explicit inputs.  `Rat.add`/`Rat.mul`/`Rat.inv`/`Rat.sub`
are `@[irreducible]` in the library; they are made semireducible here so
that `decide` and `rfl` can evaluate concrete rational arithmetic. -/

/-- A constant UTM-zone collaborator for concrete runs. -/
def utmConst : ℚ → ℚ → Int := fun _ _ => 32600

/-- Grid cell (0,0) of collection `w`, subbatch 0 / 1. -/
def c1K0 : JobKey := JobKey.grid "w" 0 0 0 32600

def c1K1 : JobKey := JobKey.grid "w" 0 0 1 32600

def c1BB : BBox := ⟨0, 0, 1, 1⟩

/-- Small watershed number `i`: area 1 sq-degree (not above the
one-square-degree singleton threshold, which is strict), centroid
`(0, 0)` — all share grid cell `(0, 0)`. -/
def c1Feature (i : Nat) : Feature := ⟨i, 1, 0, 0, 0, 1, 0, 1⟩

/-- 1002 small watersheds sharing one 4°×4° grid cell. -/
def c1Features : List Feature := (List.range 1002).map c1Feature

/-- The supplied geographic filter box of the concrete runs. -/
def c2Box : BBox := ⟨0, 0, 10, 10⟩

/-- Area-2 singleton whose envelope straddles the filter box's southern
edge (longitudes inside, latitudes from −1 to 1). -/
def c2Feature : Feature := ⟨7, 2, 2, 0, 2, 3, -1, 1⟩

/-- Area-2 singleton entirely inside the filter box. -/
def c2bFeature : Feature := ⟨9, 2, 5, 5, 4, 6, 4, 6⟩

/-- Area-2 singleton entirely west of the filter box — dropped by the
boundary check. -/
def c10Feature : Feature := ⟨3, 2, -5, 5, -5, -4, 4, 6⟩

/-- Modelled from the spec's words ("if its envelope crosses the
optional geographic filter box"), for comparison with the code's test:
an envelope crosses the box when it intersects the box but is not
contained in it. -/
def crossesBox (g w : BBox) : Bool :=
  (decide (¬(w.maxLng < g.minLng ∨ w.minLng > g.maxLng ∨
             w.maxLat < g.minLat ∨ w.minLat > g.maxLat))) &&
  (decide (¬(g.minLng ≤ w.minLng ∧ w.maxLng ≤ g.maxLng ∧
             g.minLat ≤ w.minLat ∧ w.maxLat ≤ g.maxLat)))

/-- Singleton feature for the small witness runs. -/
def w1Feature : Feature := ⟨5, 1, 0, 0, 0, 1, 0, 1⟩

/-- Witness collection for the sortedness claim: one large singleton
watershed and one small gridded watershed. -/
def w8a : Feature := ⟨3, 2, 4, 4, 4, 5, 4, 5⟩

def w8b : Feature := ⟨1, 1, 0, 0, 0, 1, 0, 1⟩

section AssocMapLemmas

variable {α : Type} {β : Type} [DecidableEq α]

theorem alookup_aset_self (m : List (α × β)) (a : α) (b : β) :
    alookup (aset m a b) a = some b := by
  induction m with
  | nil => simp [aset, alookup]
  | cons hd tl ih =>
      obtain ⟨k, v⟩ := hd
      by_cases h : k = a
      · simp [aset, h, alookup]
      · simp [aset, h, alookup, ih]

theorem alookup_aset_ne (m : List (α × β)) (a c : α) (b : β) (h : c ≠ a) :
    alookup (aset m a b) c = alookup m c := by
  induction m with
  | nil => simp [aset, alookup, Ne.symm h]
  | cons hd tl ih =>
      obtain ⟨k, v⟩ := hd
      by_cases hk : k = a
      · subst hk
        simp [aset, alookup, Ne.symm h]
      · simp only [aset, hk, if_neg hk, alookup]
        split
        · rfl
        · exact ih

theorem mem_aset (m : List (α × β)) (a : α) (b : β) (k : α) (v : β)
    (h : (k, v) ∈ aset m a b) : (k, v) ∈ m ∨ (k = a ∧ v = b) := by
  induction m with
  | nil =>
      simp [aset] at h
      exact Or.inr ⟨h.1, h.2⟩
  | cons hd tl ih =>
      obtain ⟨k0, v0⟩ := hd
      by_cases hk : k0 = a
      · subst hk
        simp [aset] at h
        rcases h with ⟨h1, h2⟩ | h2
        · exact Or.inr ⟨h1, h2⟩
        · exact Or.inl (List.mem_cons_of_mem _ h2)
      · simp [aset, hk] at h
        rcases h with ⟨h1, h2⟩ | h2
        · exact Or.inl (by simp [h1, h2])
        · rcases ih h2 with hm | hab
          · exact Or.inl (List.mem_cons_of_mem _ hm)
          · exact Or.inr hab

theorem not_mem_of_alookup_none {m : List (α × β)} {k : α}
    (h : alookup m k = none) (v : β) : (k, v) ∉ m := by
  induction m with
  | nil => simp
  | cons hd tl ih =>
      obtain ⟨k0, v0⟩ := hd
      by_cases hk : k0 = k
      · simp [alookup, hk] at h
      · simp [alookup, hk] at h
        intro hmem
        rcases List.mem_cons.mp hmem with heq | hmem2
        · exact hk (by injection heq with h1 h2; exact h1.symm)
        · exact ih h hmem2

theorem mem_of_alookup_eq_some {m : List (α × β)} {k : α} {v : β}
    (h : alookup m k = some v) : (k, v) ∈ m := by
  induction m with
  | nil => simp [alookup] at h
  | cons hd tl ih =>
      obtain ⟨k0, v0⟩ := hd
      by_cases hk : k0 = k
      · subst hk
        simp [alookup] at h
        simp [h]
      · simp [alookup, hk] at h
        exact List.mem_cons_of_mem _ (ih h)

end AssocMapLemmas

theorem cleanRun_aborted (expected : Nat) (keep : Bool)
    (fails : String → Bool) (s : CleanState) (msgs : List String)
    (h : s.aborted = true) : cleanRun expected keep fails s msgs = s := by
  cases msgs with
  | nil => rfl
  | cons p rest => simp [cleanRun, h]

theorem cleanRun_append (expected : Nat) (keep : Bool)
    (fails : String → Bool) (s : CleanState) (l1 l2 : List String) :
    cleanRun expected keep fails s (l1 ++ l2) =
      cleanRun expected keep fails (cleanRun expected keep fails s l1) l2 := by
  induction l1 generalizing s with
  | nil => simp [cleanRun]
  | cons p rest ih =>
      by_cases h : s.aborted = true
      · simp [cleanRun, h, cleanRun_aborted expected keep fails s l2 h]
      · simp at h
        simp [cleanRun, h, ih]

theorem countOcc_nil (a : String) : countOcc a [] = 0 := rfl

theorem countOcc_cons (a b : String) (l : List String) :
    countOcc a (b :: l) = (if b = a then 1 else 0) + countOcc a l := rfl

theorem alookup_filter_self (m : List (String × Nat)) (p : String) :
    alookup (m.filter (fun e => e.1 ≠ p)) p = none := by
  induction m with
  | nil => rfl
  | cons hd tl ih =>
      obtain ⟨k, v⟩ := hd
      by_cases hk : k = p
      · simpa [List.filter_cons, hk] using ih
      · simp only [List.filter_cons]
        rw [if_pos (by simp [hk])]
        simpa [alookup, hk] using ih

theorem alookup_filter_other (m : List (String × Nat)) (p q : String)
    (h : q ≠ p) :
    alookup (m.filter (fun e => e.1 ≠ p)) q = alookup m q := by
  induction m with
  | nil => rfl
  | cons hd tl ih =>
      obtain ⟨k, v⟩ := hd
      by_cases hk : k = p
      · subst hk
        simp only [List.filter_cons]
        rw [if_neg (by simp)]
        rw [ih]
        simp only [alookup]
        rw [if_neg (fun hh : k = q => h hh.symm)]
      · simp only [List.filter_cons]
        rw [if_pos (by simp [hk])]
        simp only [alookup]
        split
        · rfl
        · exact ih

theorem alookupD_aset_eval (m : List (String × Nat)) (q : String) (c : Nat)
    (p : String) :
    alookupD (aset m q c) p 0 = if p = q then c else alookupD m p 0 := by
  by_cases hpq : p = q
  · subst hpq
    rw [if_pos rfl]
    unfold alookupD
    rw [alookup_aset_self]
    rfl
  · rw [if_neg hpq]
    unfold alookupD
    rw [alookup_aset_ne _ _ _ _ hpq]

theorem alookup_filter_aset (m : List (String × Nat)) (q : String) (c : Nat)
    (p : String) :
    alookup ((aset m q c).filter (fun e => e.1 ≠ q)) p =
      if p = q then none else alookup m p := by
  by_cases hpq : p = q
  · subst hpq
    rw [if_pos rfl]
    exact alookup_filter_self _ _
  · rw [if_neg hpq]
    rw [alookup_filter_other _ _ _ hpq, alookup_aset_ne _ _ _ _ hpq]

theorem alookupD_filter_aset (m : List (String × Nat)) (q : String) (c : Nat)
    (p : String) :
    alookupD ((aset m q c).filter (fun e => e.1 ≠ q)) p 0 =
      if p = q then 0 else alookupD m p 0 := by
  unfold alookupD
  rw [alookup_filter_aset m q c p]
  by_cases hpq : p = q
  · simp [hpq]
  · simp [hpq]

/-- Behaviour of `cleanRun` over a message list, under the run invariant
that no path is acknowledged more often than the number of declared
outputs (each StitchWorker notifies a job directory at most once). -/
theorem cleanRun_spec (expected : Nat) (keep : Bool) (hpos : 0 < expected) :
    ∀ (rest : List String) (s : CleanState),
    s.aborted = false →
    s.deleted.Nodup →
    (∀ p, p ∈ s.deleted → alookup s.countDict p = none ∧ countOcc p rest = 0) →
    (∀ p, alookupD s.countDict p 0 + countOcc p rest ≤ expected) →
    (∀ p, alookupD s.countDict p 0 < expected) →
    ((cleanRun expected keep noFail s rest).aborted = false ∧
     (cleanRun expected keep noFail s rest).deleted.Nodup ∧
     (∀ p, p ∈ (cleanRun expected keep noFail s rest).deleted ↔
        (p ∈ s.deleted ∨ (keep = false ∧
          alookupD s.countDict p 0 + countOcc p rest = expected ∧
          0 < countOcc p rest))) ∧
     (∀ p, p ∈ (cleanRun expected keep noFail s rest).deleted →
        alookup (cleanRun expected keep noFail s rest).countDict p = none)) := by
  intro rest
  induction rest with
  | nil =>
      intro s hab hnd hdel _hbud _hlt
      refine ⟨hab, hnd, ?_, ?_⟩
      · intro p
        simp [cleanRun, countOcc]
      · intro p hp
        exact ((hdel p hp).1)
  | cons q rest ih =>
      intro s hab hnd hdel hbud hlt
      have hqnotdel : q ∉ s.deleted := by
        intro hq
        have := (hdel q hq).2
        simp [countOcc_cons] at this
      have hstep : cleanRun expected keep noFail s (q :: rest) =
          cleanRun expected keep noFail (cleanStep expected keep noFail s q) rest := by
        simp [cleanRun, hab]
      have hcle : alookupD s.countDict q 0 + 1 ≤ expected := by
        have := hbud q
        simp [countOcc_cons] at this
        omega
      by_cases hce : alookupD s.countDict q 0 + 1 = expected
      · -- the q-counter reaches the number of outputs on this message
        have hrestq : countOcc q rest = 0 := by
          have := hbud q
          simp [countOcc_cons] at this
          omega
        by_cases hkeep : keep = false
        · -- directory removed, counter entry deleted
          have hs' : cleanStep expected keep noFail s q =
              { countDict := ((aset s.countDict q expected).filter
                  (fun e => e.1 ≠ q)),
                deleted := s.deleted ++ [q], aborted := false } := by
            simp [cleanStep, noFail, hce, hkeep]
          rw [hstep, hs']
          obtain ⟨rab, rnd, riff, rdel⟩ := ih
            { countDict := ((aset s.countDict q expected).filter
                (fun e => e.1 ≠ q)),
              deleted := s.deleted ++ [q], aborted := false }
            rfl
            (by
              refine List.Nodup.append hnd (List.nodup_singleton q) ?_
              intro a ha hb
              simp at hb
              exact hqnotdel (hb ▸ ha))
            (by
              intro p hp
              rcases List.mem_append.mp hp with hp1 | hp2
              · have h1 := hdel p hp1
                have hpq : p ≠ q := fun hh => hqnotdel (hh ▸ hp1)
                refine ⟨?_, ?_⟩
                · rw [alookup_filter_aset, if_neg hpq]
                  exact h1.1
                · have := h1.2
                  simp [countOcc_cons] at this
                  omega
              · simp at hp2
                subst hp2
                refine ⟨?_, hrestq⟩
                rw [alookup_filter_aset, if_pos rfl])
            (by
              intro p
              rw [alookupD_filter_aset]
              by_cases hpq : p = q
              · rw [if_pos hpq]
                subst hpq
                omega
              · rw [if_neg hpq]
                have := hbud p
                simp [countOcc_cons, fun hh : q = p => hpq (hh ▸ rfl)] at this
                omega)
            (by
              intro p
              rw [alookupD_filter_aset]
              by_cases hpq : p = q
              · rw [if_pos hpq]
                exact hpos
              · rw [if_neg hpq]
                exact hlt p)
          refine ⟨rab, rnd, ?_, rdel⟩
          intro p
          rw [riff p]
          by_cases hpq : p = q
          · subst hpq
            rw [alookupD_filter_aset, if_pos rfl]
            simp [countOcc_cons, hrestq, hkeep]
            exact Or.inr hce
          · have hqp : q ≠ p := fun hh => hpq (hh ▸ rfl)
            rw [alookupD_filter_aset, if_neg hpq]
            simp [List.mem_append, hpq, countOcc_cons, hqp]
        · -- keep_intermediate_files: counter entry deleted, dir kept
          have hkeep' : keep = true := by
            cases keep
            · exact absurd rfl hkeep
            · rfl
          have hs' : cleanStep expected keep noFail s q =
              { countDict := ((aset s.countDict q expected).filter
                  (fun e => e.1 ≠ q)),
                deleted := s.deleted, aborted := false } := by
            simp [cleanStep, noFail, hce, hkeep']
          rw [hstep, hs']
          obtain ⟨rab, rnd, riff, rdel⟩ := ih
            { countDict := ((aset s.countDict q expected).filter
                (fun e => e.1 ≠ q)),
              deleted := s.deleted, aborted := false }
            rfl hnd
            (by
              intro p hp
              have h1 := hdel p hp
              have hpq : p ≠ q := fun hh => hqnotdel (hh ▸ hp)
              refine ⟨?_, ?_⟩
              · rw [alookup_filter_aset, if_neg hpq]
                exact h1.1
              · have := h1.2
                simp [countOcc_cons] at this
                omega)
            (by
              intro p
              rw [alookupD_filter_aset]
              by_cases hpq : p = q
              · rw [if_pos hpq]
                subst hpq
                omega
              · rw [if_neg hpq]
                have := hbud p
                simp [countOcc_cons, fun hh : q = p => hpq (hh ▸ rfl)] at this
                omega)
            (by
              intro p
              rw [alookupD_filter_aset]
              by_cases hpq : p = q
              · rw [if_pos hpq]
                exact hpos
              · rw [if_neg hpq]
                exact hlt p)
          refine ⟨rab, rnd, ?_, rdel⟩
          intro p
          rw [riff p]
          simp [hkeep']
      · -- the counter has not yet reached the number of outputs
        have hs' : cleanStep expected keep noFail s q =
            { countDict := aset s.countDict q (alookupD s.countDict q 0 + 1),
              deleted := s.deleted, aborted := false } := by
          simp [cleanStep, noFail, hce]
        rw [hstep, hs']
        obtain ⟨rab, rnd, riff, rdel⟩ := ih
          { countDict := aset s.countDict q (alookupD s.countDict q 0 + 1),
            deleted := s.deleted, aborted := false }
          rfl hnd
          (by
            intro p hp
            have h1 := hdel p hp
            have hpq : p ≠ q := fun hh => hqnotdel (hh ▸ hp)
            refine ⟨?_, ?_⟩
            · rw [alookup_aset_ne _ _ _ _ hpq]
              exact h1.1
            · have := h1.2
              simp [countOcc_cons] at this
              omega)
          (by
            intro p
            rw [alookupD_aset_eval]
            by_cases hpq : p = q
            · rw [if_pos hpq]
              subst hpq
              have := hbud p
              simp [countOcc_cons] at this ⊢
              omega
            · rw [if_neg hpq]
              have := hbud p
              simp [countOcc_cons, fun hh : q = p => hpq (hh ▸ rfl)] at this
              omega)
          (by
            intro p
            rw [alookupD_aset_eval]
            by_cases hpq : p = q
            · rw [if_pos hpq]
              omega
            · rw [if_neg hpq]
              exact hlt p)
        refine ⟨rab, rnd, ?_, rdel⟩
        intro p
        rw [riff p]
        by_cases hpq : p = q
        · subst hpq
          rw [alookupD_aset_eval, if_pos rfl]
          have hco : countOcc p (p :: rest) = 1 + countOcc p rest := by
            simp [countOcc_cons]
          rw [hco]
          constructor
          · rintro (h1 | ⟨h1, h2, h3⟩)
            · exact Or.inl h1
            · exact Or.inr ⟨h1, by omega, by omega⟩
          · rintro (h1 | ⟨h1, h2, h3⟩)
            · exact Or.inl h1
            · refine Or.inr ⟨h1, by omega, ?_⟩
              by_contra hz
              simp at hz
              exact hce (by omega)
        · have hqp : q ≠ p := fun hh => hpq (hh ▸ rfl)
          rw [alookupD_aset_eval, if_neg hpq]
          simp [countOcc_cons, hqp]

/-- C3: for every run — each scratch directory is acknowledged at most
`expected` times in total (one acknowledgment per declared output) and
deletions succeed — a scratch directory is deleted if and only if its
acknowledgment count reaches the number of declared outputs `expected`
and the keep-intermediate flag is unset; no directory is deleted twice,
and the counter entry of a deleted directory is removed. -/
theorem clean_worker_deletes_iff_refcount (expected : Nat) (keep : Bool)
    (msgs : List String) (hpos : 0 < expected)
    (hocc : ∀ p, countOcc p msgs ≤ expected) :
    (∀ p, p ∈ (cleanWorkspaceWorker expected keep noFail msgs).deleted ↔
      (countOcc p msgs = expected ∧ keep = false)) ∧
    (cleanWorkspaceWorker expected keep noFail msgs).deleted.Nodup ∧
    (∀ p, p ∈ (cleanWorkspaceWorker expected keep noFail msgs).deleted →
      alookup (cleanWorkspaceWorker expected keep noFail msgs).countDict p =
        none) := by
  obtain ⟨rab, rnd, riff, rdel⟩ := cleanRun_spec expected keep hpos msgs
    cleanInit rfl (by simp [cleanInit])
    (by intro p hp; simp [cleanInit] at hp)
    (by intro p; simpa [cleanInit, alookupD, alookup] using hocc p)
    (by intro p; simpa [cleanInit, alookupD, alookup] using hpos)
  refine ⟨?_, rnd, rdel⟩
  intro p
  have : cleanWorkspaceWorker expected keep noFail msgs =
      cleanRun expected keep noFail cleanInit msgs := rfl
  rw [this, riff p]
  simp only [cleanInit, List.not_mem_nil, false_or]
  have hz : alookupD (CleanState.mk [] [] false).countDict p 0 = 0 := rfl
  rw [hz]
  constructor
  · rintro ⟨h1, h2, _h3⟩
    exact ⟨by omega, h1⟩
  · rintro ⟨h1, h2⟩
    exact ⟨h2, by omega, by omega⟩

/-- C3 witness at a concrete run: two declared outputs, directory `d1`
acknowledged twice. -/
theorem clean_worker_deletes_iff_refcount_witness :
    ("d1" ∈ (cleanWorkspaceWorker 2 false noFail ["d1", "d2", "d1"]).deleted ↔
      (countOcc "d1" ["d1", "d2", "d1"] = 2 ∧ false = false)) :=
  (clean_worker_deletes_iff_refcount 2 false ["d1", "d2", "d1"] (by decide)
    (by
      intro p
      show (if "d1" = p then 1 else 0) + ((if "d2" = p then 1 else 0) +
        ((if "d1" = p then 1 else 0) + 0)) ≤ 2
      by_cases h1 : "d1" = p
      · by_cases h2 : "d2" = p
        · exact absurd (h1.trans h2.symm) (by decide)
        · simp only [if_pos h1, if_neg h2]
          omega
      · by_cases h2 : "d2" = p
        · simp only [if_neg h1, if_pos h2]
          omega
        · simp only [if_neg h1, if_neg h2]
          omega)).1 "d1"

/-- C9 counterexample: with one declared output, `rmtree("dir1")` raising
ends the worker (the exception is swallowed at top level), and the later
fully-acknowledged directory `dir2` is never reclaimed — so reclamation
does not remain best-effort for the remaining directories as claimed. -/
theorem clean_worker_failure_counterexample :
    (cleanWorkspaceWorker 1 false failsD1 ["dir1", "dir2"]).aborted = true ∧
    countOcc "dir2" ["dir1", "dir2"] = 1 ∧
    "dir2" ∉ (cleanWorkspaceWorker 1 false failsD1 ["dir1", "dir2"]).deleted ∧
    (cleanWorkspaceWorker 1 false failsD1 ["dir1", "dir2"]).deleted = [] := by
  decide

/-- C9 amended: a cleanup failure is logged and swallowed — the worker
returns normally instead of propagating the exception, so the run does
not fail — but the worker thread stops at the first failing deletion:
acknowledgments queued after the failure are never processed and those
directories are never reclaimed. -/
theorem clean_worker_failure_halts (expected : Nat) (keep : Bool)
    (fails : String → Bool) (pre post : List String) (p : String)
    (hab : (cleanRun expected keep fails cleanInit pre).aborted = false)
    (hc : alookupD (cleanRun expected keep fails cleanInit pre).countDict
      p 0 + 1 = expected)
    (hk : keep = false) (hf : fails p = true) :
    cleanWorkspaceWorker expected keep fails (pre ++ p :: post) =
      { countDict :=
          aset (cleanRun expected keep fails cleanInit pre).countDict
            p expected,
        deleted := (cleanRun expected keep fails cleanInit pre).deleted,
        aborted := true } := by
  subst hk
  show cleanRun expected false fails cleanInit (pre ++ p :: post) = _
  rw [cleanRun_append]
  have hstep : cleanStep expected false fails
      (cleanRun expected false fails cleanInit pre) p =
      { countDict :=
          aset (cleanRun expected false fails cleanInit pre).countDict
            p expected,
        deleted := (cleanRun expected false fails cleanInit pre).deleted,
        aborted := true } := by
    simp only [cleanStep, hf]
    rw [if_pos hc, hc]
    simp
  have hrun : cleanRun expected false fails
      (cleanRun expected false fails cleanInit pre) (p :: post) =
      cleanRun expected false fails
        (cleanStep expected false fails
          (cleanRun expected false fails cleanInit pre) p) post := by
    simp [cleanRun, hab]
  rw [hrun, hstep]
  exact cleanRun_aborted _ _ _ _ _ rfl

/-- C9 amended witness: a single-output run whose first acknowledged
directory fails to delete. -/
theorem clean_worker_failure_halts_witness :
    cleanWorkspaceWorker 1 false failsD1 ([] ++ "dir1" :: ["dirX"]) =
      { countDict :=
          aset (cleanRun 1 false failsD1 cleanInit []).countDict "dir1" 1,
        deleted := (cleanRun 1 false failsD1 cleanInit []).deleted,
        aborted := true } :=
  clean_worker_failure_halts 1 false failsD1 [] ["dirX"] "dir1" rfl rfl rfl
    (by decide)

theorem flushBuffer_join (s : StitchState) :
    (flushBuffer s).flushes.join = s.flushes.join ++ s.buffer := by
  simp [flushBuffer]

theorem stitchWorker_append (msgs1 msgs2 : List StitchPayload) :
    ∀ s : StitchState, StitchPayload.close ∉ msgs1 →
    stitchWorker s (msgs1 ++ msgs2) =
      stitchWorker (stitchWorker s msgs1) msgs2 := by
  induction msgs1 with
  | nil => intro s _; rfl
  | cons m rest ih =>
      intro s hnc
      have hncr : StitchPayload.close ∉ rest := by
        intro h
        exact hnc (List.mem_cons_of_mem _ h)
      cases m with
      | close => exact absurd (List.mem_cons_self _ _) hnc
      | skipped => simp [stitchWorker, ih _ hncr]
      | item p b => simp [stitchWorker, ih _ hncr]

theorem stitchWorker_spec_aux (msgs : List StitchPayload) :
    ∀ s : StitchState, StitchPayload.close ∉ msgs →
    ((stitchWorker s msgs).processed = s.processed + msgs.length ∧
     (stitchWorker s msgs).flushes.join ++ (stitchWorker s msgs).buffer =
       s.flushes.join ++ s.buffer ++ itemsOf msgs ∧
     (s.acks = s.flushes.join.map (fun pr => dirname pr.1) →
      (stitchWorker s msgs).acks =
        (stitchWorker s msgs).flushes.join.map (fun pr => dirname pr.1))) := by
  induction msgs with
  | nil =>
      intro s _
      refine ⟨rfl, by simp [stitchWorker, itemsOf], fun h => h⟩
  | cons m rest ih =>
      intro s hnc
      have hncr : StitchPayload.close ∉ rest := by
        intro h
        exact hnc (List.mem_cons_of_mem _ h)
      cases m with
      | close => exact absurd (List.mem_cons_self _ _) hnc
      | skipped =>
          obtain ⟨h1, h2, h3⟩ := ih { s with processed := s.processed + 1 } hncr
          refine ⟨?_, ?_, ?_⟩
          · simp [stitchWorker, h1]
            omega
          · simpa [stitchWorker, itemsOf] using h2
          · intro hs
            exact h3 hs
      | item p b =>
          by_cases hflush : nToBufferStitch < s.buffer.length + 1
          · have hstep : stitchWorker s (StitchPayload.item p b :: rest) =
                stitchWorker
                  { processed := s.processed + 1, buffer := [],
                    flushes := s.flushes ++ [s.buffer ++ [(p, b)]],
                    acks := s.acks ++
                      (s.buffer ++ [(p, b)]).map (fun pr => dirname pr.1) }
                  rest := by
              simp [stitchWorker, hflush, flushBuffer]
            obtain ⟨h1, h2, h3⟩ := ih
              { processed := s.processed + 1, buffer := [],
                flushes := s.flushes ++ [s.buffer ++ [(p, b)]],
                acks := s.acks ++
                  (s.buffer ++ [(p, b)]).map (fun pr => dirname pr.1) } hncr
            refine ⟨?_, ?_, ?_⟩
            · rw [hstep, h1]
              simp
              omega
            · rw [hstep, h2]
              simp [itemsOf]
            · intro hs
              rw [hstep]
              refine h3 ?_
              simp [hs]
          · have hstep : stitchWorker s (StitchPayload.item p b :: rest) =
                stitchWorker
                  { processed := s.processed + 1,
                    buffer := s.buffer ++ [(p, b)],
                    flushes := s.flushes, acks := s.acks } rest := by
              simp [stitchWorker, hflush]
            obtain ⟨h1, h2, h3⟩ := ih
              { processed := s.processed + 1,
                buffer := s.buffer ++ [(p, b)],
                flushes := s.flushes, acks := s.acks } hncr
            refine ⟨?_, ?_, ?_⟩
            · rw [hstep, h1]
              simp
              omega
            · rw [hstep, h2]
              simp [itemsOf]
            · intro hs
              rw [hstep]
              exact h3 hs

/-- C6: a StitchWorker that receives exactly the item/skip messages
`msgs` followed by `Close` counts exactly `msgs.length` processed
signals; a `Skip` only advances the processed counter; the `Close`
performs exactly one final merge flush of the remaining buffered paths
(the terminal state is `flushBuffer` of the pre-`Close` state, with an
empty buffer), every received item is flushed exactly once, and the
cleanup coordinator is notified of each flushed path's parent directory
once. -/
theorem stitch_worker_totals (msgs : List StitchPayload)
    (hnc : StitchPayload.close ∉ msgs) :
    (stitchWorker stitchInit (msgs ++ [StitchPayload.close])).processed =
      msgs.length ∧
    stitchWorker stitchInit (msgs ++ [StitchPayload.close]) =
      flushBuffer (stitchWorker stitchInit msgs) ∧
    (stitchWorker stitchInit (msgs ++ [StitchPayload.close])).buffer = [] ∧
    (stitchWorker stitchInit (msgs ++ [StitchPayload.close])).flushes.join =
      itemsOf msgs ∧
    (stitchWorker stitchInit (msgs ++ [StitchPayload.close])).acks =
      (itemsOf msgs).map (fun pr => dirname pr.1) ∧
    (∀ s : StitchState, stitchWorker s [StitchPayload.skipped] =
      { s with processed := s.processed + 1 }) := by
  have hclose : stitchWorker stitchInit (msgs ++ [StitchPayload.close]) =
      flushBuffer (stitchWorker stitchInit msgs) := by
    rw [stitchWorker_append msgs [StitchPayload.close] stitchInit hnc]
    rfl
  obtain ⟨h1, h2, h3⟩ := stitchWorker_spec_aux msgs stitchInit hnc
  have hjoin : (flushBuffer (stitchWorker stitchInit msgs)).flushes.join =
      itemsOf msgs := by
    rw [flushBuffer_join]
    simpa [stitchInit] using h2
  refine ⟨?_, hclose, ?_, ?_, ?_, ?_⟩
  · rw [hclose]
    simpa [flushBuffer, stitchInit] using h1
  · rw [hclose]
    rfl
  · rw [hclose, hjoin]
  · rw [hclose]
    have hacks := h3 (by simp [stitchInit])
    simp only [flushBuffer]
    rw [hacks, ← List.map_append, ← flushBuffer_join, hjoin]
  · intro s
    rfl

/-- C6 witness: two items and one skip, then `Close`. -/
theorem stitch_worker_totals_witness :
    (stitchWorker stitchInit
      ([StitchPayload.item "ws1/sed_export.tif" 1, StitchPayload.skipped,
        StitchPayload.item "ws2/sed_export.tif" 1] ++
       [StitchPayload.close])).processed = 3 :=
  (stitch_worker_totals
    [StitchPayload.item "ws1/sed_export.tif" 1, StitchPayload.skipped,
     StitchPayload.item "ws2/sed_export.tif" 1] (by decide)).1

/-- C7: a batch whose envelope is disjoint from the global intersecting
bounding box makes both the SDR and the NDR task emit exactly one Skip
message to every declared output's channel and return with zero warps
and zero model calls. -/
theorem disjoint_batch_skips (rasters : List (Option String))
    (outputs : List String) (ws : String) (houts : outputs.Nodup) :
    executeSdrJob false rasters outputs ws =
      outputs.map (fun o => JobEvent.putSkip o) ∧
    executeNdrJob false rasters outputs ws =
      outputs.map (fun o => JobEvent.putSkip o) ∧
    JobEvent.modelExec ∉ executeSdrJob false rasters outputs ws ∧
    JobEvent.modelExec ∉ executeNdrJob false rasters outputs ws ∧
    (∀ o ∈ outputs,
      (executeSdrJob false rasters outputs ws).count (JobEvent.putSkip o) =
        1) := by
  refine ⟨rfl, rfl, by simp [executeSdrJob], by simp [executeNdrJob], ?_⟩
  intro o ho
  have hinj : Function.Injective JobEvent.putSkip := by
    intro a b hab
    injection hab
  show ((outputs.map (fun o => JobEvent.putSkip o)).count
    (JobEvent.putSkip o)) = 1
  rw [List.count_map_of_injective _ _ hinj]
  exact List.count_eq_one_of_mem houts ho

/-- C7 witness: the four declared SDR outputs. -/
theorem disjoint_batch_skips_witness :
    executeSdrJob false [] sdrOutputs "sdrws" =
      sdrOutputs.map (fun o => JobEvent.putSkip o) :=
  (disjoint_batch_skips [] sdrOutputs "sdrws" (by decide)).1

/-- C4: contrary to the claim, the NDR batch task is not structurally
identical to the SDR task.  On a batch overlapping the global bounding
box the SDR task's trace is the two-stage alignment of each input,
one model call and one Item push per output, while the NDR task's trace
is exactly `[sysExit]`: it terminates at the leftover `sys.exit()`
before any alignment, model call or push. -/
theorem ndr_job_early_exit (rasters : List (Option String))
    (outputs : List String) (ws : String) :
    executeNdrJob true rasters outputs ws = [JobEvent.sysExit] ∧
    executeSdrJob true rasters outputs ws =
      warpRasterStack rasters ++ [JobEvent.modelExec] ++
        outputs.map (fun o => JobEvent.putItem o (pathJoin ws o)) ∧
    JobEvent.modelExec ∉ executeNdrJob true rasters outputs ws ∧
    (∀ o path, JobEvent.putItem o path ∉ executeNdrJob true rasters outputs
      ws) := by
  refine ⟨by simp [executeNdrJob], by simp [executeSdrJob], ?_, ?_⟩
  · simp [executeNdrJob]
  · intro o path
    simp [executeNdrJob]

/-- C5 counterexample: for the SDR run's declared outputs, not every
created coordination channel is bounded — the CleanupCoordinator's
acknowledgment channel has no capacity. -/
theorem channels_not_all_bounded :
    ¬ (∀ cap ∈ runChannelCapacities sdrOutputs, cap.isSome = true) := by
  decide

/-- C5 amended: each StitchWorker's message channel is created bounded
with capacity `N_TO_BUFFER_STITCH * 2 = 20`, so a producer pushing into
a full stitch channel blocks; the CleanupCoordinator's acknowledgment
channel, however, is created unbounded. -/
theorem stitch_channels_bounded (outputs : List String) :
    signalDoneQueueCapacity = none ∧
    stitchQueueCapacity = some 20 ∧
    runChannelCapacities outputs = none :: outputs.map (fun _ => some 20) :=
  ⟨rfl, rfl, rfl⟩

/-! ### Where emitted pairs come from -/

theorem emitBatches_mem (minArea : ℚ) :
    ∀ (l : List (JobKey × Entry)) (seen : List JobKey)
      (r : List JobKey × List (ℚ × Batch)),
    emitBatches minArea l seen = .ok r →
    ∀ pr ∈ r.2, ∃ k e, (k, e) ∈ l ∧
      pr = (e.area, ⟨k, e.fids, e.envs, e.area⟩) := by
  intro l
  induction l with
  | nil =>
      intro seen r hr pr hpr
      simp [emitBatches] at hr
      rw [← hr] at hpr
      simp at hpr
  | cons he rest ih =>
      intro seen r hr pr hpr
      obtain ⟨k, e⟩ := he
      by_cases hseen : k ∈ seen
      · simp [emitBatches, hseen] at hr
      · by_cases hsmall : e.envs.length < 3 ∧ e.area < minArea
        · simp only [emitBatches, if_neg hseen, if_pos hsmall] at hr
          obtain ⟨k2, e2, hmem, heq⟩ := ih seen r hr pr hpr
          exact ⟨k2, e2, List.mem_cons_of_mem _ hmem, heq⟩
        · simp only [emitBatches, if_neg hseen, if_neg hsmall] at hr
          cases hrec : emitBatches minArea rest (seen ++ [k]) with
          | error u => rw [hrec] at hr; simp at hr
          | ok r2 =>
              rw [hrec] at hr
              simp at hr
              rw [← hr] at hpr
              simp at hpr
              rcases hpr with hpr1 | hpr2
              · exact ⟨k, e, List.mem_cons_self _ _, hpr1⟩
              · obtain ⟨k2, e2, hmem, heq⟩ :=
                  ih (seen ++ [k]) r2 hrec pr hpr2
                exact ⟨k2, e2, List.mem_cons_of_mem _ hmem, heq⟩

theorem processCollection_mem (ds : Int) (utm : ℚ → ℚ → Int)
    (gbb : Option BBox) (minArea : ℚ)
    (subset : Option (List (String × List Nat))) (coll : Collection)
    (seen : List JobKey) (r : List JobKey × List (ℚ × Batch))
    (hr : processCollection ds utm gbb minArea subset coll seen = .ok r) :
    ∀ pr ∈ r.2, ∃ (feats : List Feature) (sel : Bool) (k : JobKey) (e : Entry),
      (k, e) ∈ (List.foldl (processFeature ds utm gbb coll.basename sel)
        collInit feats).fidIndex ∧
      pr = (e.area, ⟨k, e.fids, e.envs, e.area⟩) := by
  intro pr hpr
  cases subset with
  | none =>
      simp only [processCollection] at hr
      obtain ⟨k, e, hmem, heq⟩ := emitBatches_mem minArea _ _ _ hr pr hpr
      exact ⟨coll.features, false, k, e,
        (List.mem_insertionSort entryAreaGE).mp hmem, heq⟩
  | some submap =>
      simp only [processCollection] at hr
      cases hs : alookup submap coll.basename with
      | none =>
          rw [hs] at hr
          simp at hr
          rw [← hr] at hpr
          simp at hpr
      | some fids =>
          rw [hs] at hr
          obtain ⟨k, e, hmem, heq⟩ := emitBatches_mem minArea _ _ _ hr pr hpr
          exact ⟨_, true, k, e,
            (List.mem_insertionSort entryAreaGE).mp hmem, heq⟩

theorem processCollections_mem (ds : Int) (utm : ℚ → ℚ → Int)
    (gbb : Option BBox) (minArea : ℚ)
    (subset : Option (List (String × List Nat))) :
    ∀ (colls : List Collection) (seen : List JobKey)
      (out : List (ℚ × Batch)),
    processCollections ds utm gbb minArea subset colls seen = .ok out →
    ∀ pr ∈ out, ∃ (bn : String) (feats : List Feature) (sel : Bool)
      (k : JobKey) (e : Entry),
      (k, e) ∈ (List.foldl (processFeature ds utm gbb bn sel)
        collInit feats).fidIndex ∧
      pr = (e.area, ⟨k, e.fids, e.envs, e.area⟩) := by
  intro colls
  induction colls with
  | nil =>
      intro seen out hout pr hpr
      simp [processCollections] at hout
      rw [hout] at hpr
      simp at hpr
  | cons coll rest ih =>
      intro seen out hout pr hpr
      simp only [processCollections] at hout
      cases hc : processCollection ds utm gbb minArea subset coll seen with
      | error u => rw [hc] at hout; simp at hout
      | ok r1 =>
          obtain ⟨seen2, out1⟩ := r1
          rw [hc] at hout
          simp only [] at hout
          cases hrec : processCollections ds utm gbb minArea subset rest seen2 with
          | error u => rw [hrec] at hout; simp at hout
          | ok out2 =>
              rw [hrec] at hout
              simp at hout
              rw [← hout] at hpr
              rcases List.mem_append.mp hpr with hpr1 | hpr2
              · obtain ⟨feats, sel, k, e, hmem, heq⟩ :=
                  processCollection_mem ds utm gbb minArea subset coll seen
                    (seen2, out1) hc pr hpr1
                exact ⟨coll.basename, feats, sel, k, e, hmem, heq⟩
              · exact ih seen2 out2 hrec pr hpr2

/-- C8: the batch list returned by the batcher is sorted by accumulated
area in descending order, across all source collections combined. -/
theorem batches_sorted_by_area (ds : Int) (utm : ℚ → ℚ → Int)
    (gbb : Option BBox) (minArea : ℚ)
    (subset : Option (List (String × List Nat))) (colls : List Collection)
    (bs : List Batch)
    (hok : batchIntoWatershedSubsets ds utm gbb minArea subset colls =
      .ok bs) :
    List.Sorted (fun a b : Batch => b.area ≤ a.area) bs := by
  unfold batchIntoWatershedSubsets at hok
  cases hpc : processCollections ds utm gbb minArea subset colls [] with
  | error u => rw [hpc] at hok; simp at hok
  | ok pairs =>
      rw [hpc] at hok
      simp at hok
      rw [← hok]
      have hsorted : List.Sorted pairAreaGE
          (List.insertionSort pairAreaGE pairs) :=
        List.sorted_insertionSort pairAreaGE pairs
      have harea : ∀ pr ∈ List.insertionSort pairAreaGE pairs,
          pr.1 = pr.2.area := by
        intro pr hpr
        have hmem : pr ∈ pairs :=
          (List.mem_insertionSort pairAreaGE).mp hpr
        obtain ⟨_, _, _, _, e, _, heq⟩ :=
          processCollections_mem ds utm gbb minArea subset colls [] pairs
            hpc pr hmem
        rw [heq]
      show List.Pairwise _ _
      rw [List.pairwise_map]
      refine List.Pairwise.imp_of_mem ?_ hsorted
      intro a b ha hb hr
      have h1 := harea a ha
      have h2 := harea b hb
      rw [← h1, ← h2]
      exact hr

/-! ### The batch-size bound -/

theorem alookupD_aset_gen {α β : Type} [DecidableEq α]
    (m : List (α × β)) (a : α) (b : β) (c : α) (d : β) :
    alookupD (aset m a b) c d = if c = a then b else alookupD m c d := by
  by_cases hca : c = a
  · subst hca
    rw [if_pos rfl]
    unfold alookupD
    rw [alookup_aset_self]
    rfl
  · rw [if_neg hca]
    unfold alookupD
    rw [alookup_aset_ne _ _ _ _ hca]

theorem mem_touch {m : List (JobKey × Entry)} {k0 k : JobKey} {e : Entry}
    (h : (k, e) ∈ touch m k0) : (k, e) ∈ m ∨ (k = k0 ∧ e = emptyEntry) := by
  unfold touch at h
  cases hl : alookup m k0 with
  | some e0 => rw [hl] at h; exact Or.inl h
  | none => rw [hl] at h; exact mem_aset _ _ _ _ _ h

theorem alookup_touch_ne (m : List (JobKey × Entry)) (k0 k : JobKey)
    (h : k ≠ k0) : alookup (touch m k0) k = alookup m k := by
  unfold touch
  cases hl : alookup m k0 with
  | some e0 => rfl
  | none => exact alookup_aset_ne _ _ _ _ h

theorem invCS_collInit : InvCS collInit := by
  constructor
  · intro k e h
    simp [collInit] at h
  · intro bn x y i epsg e h
    simp [collInit] at h

theorem entryAt_fids_le {m : List (JobKey × Entry)}
    (h : ∀ k e, (k, e) ∈ m → e.fids.length ≤ 1001) (k : JobKey) :
    (entryAt m k).fids.length ≤ 1001 := by
  unfold entryAt
  cases hl : alookup m k with
  | none => simp [emptyEntry]
  | some e => simpa using h k e (mem_of_alookup_eq_some hl)

theorem assignFid_inv (ds : Int) (utm : ℚ → ℚ → Int) (bn : String)
    (sel : Bool) (s : CollState) (f : Feature) (hs : InvCS s) :
    InvCS (assignFid ds utm bn sel s f).2 := by
  obtain ⟨h1, h2⟩ := hs
  simp only [assignFid]
  by_cases hcond : 1 < f.area ∨ sel = true
  · rw [if_pos hcond]
    constructor
    · intro k e hmem
      rcases mem_aset _ _ _ _ _ hmem with hm | ⟨_, hv⟩
      · exact h1 _ _ hm
      · rw [hv]
        simp
    · intro bn' x y i epsg e hmem
      rcases mem_aset _ _ _ _ _ hmem with hm | ⟨hk, _⟩
      · exact h2 _ _ _ _ _ _ hm
      · cases hk
  · rw [if_neg hcond]
    by_cases hlen : 1000 < (entryAt s.fidIndex
        (JobKey.grid bn (Int.floor (f.cx / ((ds : Int) : ℚ)) * ds)
          (Int.floor (f.cy / ((ds : Int) : ℚ)) * ds)
          (alookupD s.subIdx
            (bn, Int.floor (f.cx / ((ds : Int) : ℚ)) * ds,
              Int.floor (f.cy / ((ds : Int) : ℚ)) * ds) 0)
          (utm f.cx f.cy))).fids.length
    · rw [if_pos hlen]
      set x := Int.floor (f.cx / ((ds : Int) : ℚ)) * ds with hxdef
      set y := Int.floor (f.cy / ((ds : Int) : ℚ)) * ds with hydef
      set i := alookupD s.subIdx (bn, x, y) 0 with hidef
      set k0 := JobKey.grid bn x y i (utm f.cx f.cy) with hk0def
      set k1 := JobKey.grid bn x y (i + 1) (utm f.cx f.cy) with hk1def
      have hk01 : k1 ≠ k0 := by
        rw [hk0def, hk1def]
        intro hh
        injection hh with _ _ _ hi _
        omega
      have hk1none : alookup (touch s.fidIndex k0) k1 = none := by
        rw [alookup_touch_ne _ _ _ hk01]
        cases hl : alookup s.fidIndex k1 with
        | none => rfl
        | some e1 =>
            exfalso
            have := h2 bn x y (i + 1) (utm f.cx f.cy) e1
              (mem_of_alookup_eq_some (hk1def ▸ hl))
            omega
      have he1 : entryAt (touch s.fidIndex k0) k1 = emptyEntry := by
        unfold entryAt
        rw [hk1none]
        rfl
      constructor
      · intro k e hmem
        rcases mem_aset _ _ _ _ _ hmem with hm | ⟨_, hv⟩
        · rcases mem_touch hm with hm2 | ⟨_, hv2⟩
          · exact h1 _ _ hm2
          · rw [hv2]
            simp [emptyEntry]
        · rw [hv, he1]
          simp [emptyEntry]
      · intro bn' x' y' i' epsg' e hmem
        rcases mem_aset _ _ _ _ _ hmem with hm | ⟨hk, _⟩
        · have hold : i' ≤ alookupD s.subIdx (bn', x', y') 0 := by
            rcases mem_touch hm with hm2 | ⟨hk2, _⟩
            · exact h2 _ _ _ _ _ _ hm2
            · injection hk2 with hb hx hy hi he
              subst hb; subst hx; subst hy; subst hi
              omega
          rw [alookupD_aset_gen]
          by_cases hbase : (bn', x', y') = (bn, x, y)
          · rw [if_pos hbase]
            have : alookupD s.subIdx (bn', x', y') 0 = i := by
              rw [hbase, ← hidef]
            omega
          · rw [if_neg hbase]
            exact hold
        · injection hk with hb hx hy hi he
          subst hb; subst hx; subst hy; subst hi
          rw [alookupD_aset_gen, if_pos rfl]
    · rw [if_neg hlen]
      constructor
      · intro k e hmem
        rcases mem_aset _ _ _ _ _ hmem with hm | ⟨_, hv⟩
        · exact h1 _ _ hm
        · rw [hv]
          simp
          omega
      · intro bn' x' y' i' epsg' e hmem
        rcases mem_aset _ _ _ _ _ hmem with hm | ⟨hk, _⟩
        · exact h2 _ _ _ _ _ _ hm
        · injection hk with hb hx hy hi he
          subst hb; subst hx; subst hy; subst hi
          exact le_refl _

theorem assignFid_alookup (ds : Int) (utm : ℚ → ℚ → Int) (bn : String)
    (sel : Bool) (s : CollState) (f : Feature) :
    ∃ e, alookup (assignFid ds utm bn sel s f).2.fidIndex
      (assignFid ds utm bn sel s f).1 = some e := by
  simp only [assignFid]
  by_cases hcond : 1 < f.area ∨ sel = true
  · rw [if_pos hcond]
    exact ⟨_, alookup_aset_self _ _ _⟩
  · rw [if_neg hcond]
    by_cases hlen : 1000 < (entryAt s.fidIndex
        (JobKey.grid bn (Int.floor (f.cx / ((ds : Int) : ℚ)) * ds)
          (Int.floor (f.cy / ((ds : Int) : ℚ)) * ds)
          (alookupD s.subIdx
            (bn, Int.floor (f.cx / ((ds : Int) : ℚ)) * ds,
              Int.floor (f.cy / ((ds : Int) : ℚ)) * ds) 0)
          (utm f.cx f.cy))).fids.length
    · rw [if_pos hlen]
      exact ⟨_, alookup_aset_self _ _ _⟩
    · rw [if_neg hlen]
      exact ⟨_, alookup_aset_self _ _ _⟩

theorem processFeature_inv (ds : Int) (utm : ℚ → ℚ → Int)
    (gbb : Option BBox) (bn : String) (sel : Bool) (s : CollState)
    (f : Feature) (hs : InvCS s) :
    InvCS (processFeature ds utm gbb bn sel s f) := by
  have hinv1 := assignFid_inv ds utm bn sel s f hs
  obtain ⟨e1, he1⟩ := assignFid_alookup ds utm bn sel s f
  obtain ⟨h1, h2⟩ := hinv1
  have key : ∀ v : Entry, v.fids.length ≤ 1001 →
      InvCS ⟨(assignFid ds utm bn sel s f).2.subIdx,
        aset (assignFid ds utm bn sel s f).2.fidIndex
          (assignFid ds utm bn sel s f).1 v⟩ := by
    intro v hv
    constructor
    · intro k e hmem
      rcases mem_aset _ _ _ _ _ hmem with hm | ⟨_, hvv⟩
      · exact h1 _ _ hm
      · rw [hvv]
        exact hv
    · intro bn' x y i epsg e hmem
      rcases mem_aset _ _ _ _ _ hmem with hm | ⟨hk, _⟩
      · exact h2 _ _ _ _ _ _ hm
      · exact h2 bn' x y i epsg e1 (mem_of_alookup_eq_some (hk ▸ he1))
  simp only [processFeature]
  split
  · apply key
    have hb := entryAt_fids_le h1 (assignFid ds utm bn sel s f).1
    have := List.length_dropLast
      ((entryAt (assignFid ds utm bn sel s f).2.fidIndex
        (assignFid ds utm bn sel s f).1).fids)
    simp only []
    omega
  · apply key
    exact entryAt_fids_le h1 _

theorem foldl_processFeature_inv (ds : Int) (utm : ℚ → ℚ → Int)
    (gbb : Option BBox) (bn : String) (sel : Bool) :
    ∀ (feats : List Feature) (s : CollState), InvCS s →
    InvCS (List.foldl (processFeature ds utm gbb bn sel) s feats) := by
  intro feats
  induction feats with
  | nil => intro s hs; exact hs
  | cons f rest ih =>
      intro s hs
      exact ih _ (processFeature_inv ds utm gbb bn sel s f hs)

/-- C1 amended: every batch the batcher emits contains at most 1001
member regions — not 1000: the per-cell overflow counter starts a new
sibling batch only once the current cell batch already holds more than
1000 FIDs, i.e. on the bucketing after the 1001st. -/
theorem batch_size_bounded (ds : Int) (utm : ℚ → ℚ → Int)
    (gbb : Option BBox) (minArea : ℚ)
    (subset : Option (List (String × List Nat))) (colls : List Collection)
    (bs : List Batch)
    (hok : batchIntoWatershedSubsets ds utm gbb minArea subset colls =
      .ok bs) :
    ∀ b ∈ bs, b.fids.length ≤ 1001 := by
  intro b hb
  unfold batchIntoWatershedSubsets at hok
  cases hpc : processCollections ds utm gbb minArea subset colls [] with
  | error u => rw [hpc] at hok; simp at hok
  | ok pairs =>
      rw [hpc] at hok
      simp at hok
      rw [← hok] at hb
      obtain ⟨pr, hpr, hprb⟩ := List.mem_map.mp hb
      have hmem : pr ∈ pairs := (List.mem_insertionSort pairAreaGE).mp hpr
      obtain ⟨bn, feats, sel, k, e, hkmem, heq⟩ :=
        processCollections_mem ds utm gbb minArea subset colls [] pairs
          hpc pr hmem
      have hinv := foldl_processFeature_inv ds utm gbb bn sel feats
        collInit invCS_collInit
      have hbound := hinv.1 k e hkmem
      rw [← hprb, heq]
      exact hbound

/-! ### The filter-box drop test on a single-region run -/

theorem single_feature_run (ds : Int) (utm : ℚ → ℚ → Int) (g : BBox)
    (bn : String) (f : Feature) (harea : 1 < f.area) :
    batchIntoWatershedSubsets ds utm (some g) 0 none [⟨bn, [f]⟩] =
      .ok [if onDangerousBoundary g (watershedBB f) = true then
            ⟨JobKey.single bn f.fid (utm f.cx f.cy), [], [], 0⟩
          else
            ⟨JobKey.single bn f.fid (utm f.cx f.cy), [f.fid],
              [watershedBB f], f.area⟩] := by
  have hpos : ¬(f.area < 0) := by
    intro hneg
    exact absurd (lt_trans hneg (lt_trans zero_lt_one harea)) (lt_irrefl _)
  by_cases hb : onDangerousBoundary g (watershedBB f) = true
  · rw [if_pos hb]
    simp [batchIntoWatershedSubsets, processCollections, processCollection,
      processFeature, assignFid, entryAt, alookup, aset, emitBatches,
      collInit, emptyEntry, hb, harea]
  · rw [if_neg hb]
    simp only [Bool.not_eq_true] at hb
    simp [batchIntoWatershedSubsets, processCollections, processCollection,
      processFeature, assignFid, entryAt, alookup, aset, emitBatches,
      collInit, emptyEntry, hb, harea, hpos]

/-- C2 amended: for a region qualifying as its own singleton batch, the
batcher drops the region exactly when the code's boundary test fires:
its envelope extends west or east of the supplied filter box, or lies
entirely north or south of it.  A region whose envelope merely crosses
the box's northern or southern edge while staying inside its longitude
range is kept (and a region entirely outside the box vertically — which
does not cross it — is dropped). -/
theorem filter_box_drop_condition (g : BBox) (f : Feature) (bn : String)
    (utm : ℚ → ℚ → Int) (ds : Int) (harea : 1 < f.area) :
    emittedBatches (batchIntoWatershedSubsets ds utm (some g) 0 none
      [⟨bn, [f]⟩]) =
      [if onDangerousBoundary g (watershedBB f) = true then
        ⟨JobKey.single bn f.fid (utm f.cx f.cy), [], [], 0⟩
      else
        ⟨JobKey.single bn f.fid (utm f.cx f.cy), [f.fid], [watershedBB f],
          f.area⟩] := by
  rw [single_feature_run ds utm g bn f harea]
  rfl

/-- C10: a region qualifying for a singleton batch (area above one
square degree) that is dropped by the filter-box check leaves its
emptied accumulator entry behind: with a minimum-area threshold of 0
the batcher still emits a batch descriptor under that region's job id
with zero member regions, zero envelopes and zero accumulated area,
because the small-batch drop test (fewer than 3 envelopes AND area
strictly below the threshold) is false when the threshold is 0. -/
theorem dropped_singleton_emits_empty_batch (g : BBox) (f : Feature)
    (bn : String) (utm : ℚ → ℚ → Int) (ds : Int) (harea : 1 < f.area)
    (hb : onDangerousBoundary g (watershedBB f) = true) :
    emittedBatches (batchIntoWatershedSubsets ds utm (some g) 0 none
      [⟨bn, [f]⟩]) =
      [⟨JobKey.single bn f.fid (utm f.cx f.cy), [], [], 0⟩] := by
  rw [single_feature_run ds utm g bn f harea, if_pos hb]
  rfl

theorem c1_step (n : Nat) (E : Entry) (hlen : ¬ 1000 < E.fids.length) :
    processFeature 4 utmConst none "w" false ⟨[], [(c1K0, E)]⟩
      (c1Feature n) =
      ⟨[], [(c1K0, ⟨E.fids ++ [n], E.envs ++ [c1BB], E.area + 1⟩)]⟩ := by
  simp [processFeature, assignFid, c1Feature, utmConst, entryAt, alookup,
    alookupD, aset, c1K0, c1BB, watershedBB, hlen]

theorem c1_step0 (n : Nat) :
    processFeature 4 utmConst none "w" false collInit (c1Feature n) =
      ⟨[], [(c1K0, ⟨[n], [c1BB], 1⟩)]⟩ := by
  simp [processFeature, assignFid, c1Feature, utmConst, entryAt, alookup,
    alookupD, aset, c1K0, c1BB, watershedBB, collInit, emptyEntry]

theorem c1_fold : ∀ n : Nat, n + 1 ≤ 1001 →
    List.foldl (processFeature 4 utmConst none "w" false) collInit
      ((List.range (n + 1)).map c1Feature) =
      ⟨[], [(c1K0, ⟨List.range (n + 1), List.replicate (n + 1) c1BB,
        (n : ℚ) + 1⟩)]⟩ := by
  intro n
  induction n with
  | zero =>
      intro _
      simp [show List.range 1 = [0] from rfl, c1_step0]
  | succ m ih =>
      intro h
      rw [List.range_succ, List.map_append, List.foldl_append]
      rw [ih (by omega)]
      simp only [List.map_cons, List.map_nil, List.foldl_cons,
        List.foldl_nil]
      rw [c1_step (m + 1) _ (by simp [List.length_range]; omega)]
      rw [← List.range_succ, ← List.replicate_succ']
      simp only [CollState.mk.injEq, List.cons.injEq, Prod.mk.injEq,
        Entry.mk.injEq, and_true, true_and]
      push_cast
      ring

theorem c1_bump (E : Entry) (hlen : 1000 < E.fids.length) :
    processFeature 4 utmConst none "w" false ⟨[], [(c1K0, E)]⟩
      (c1Feature 1001) =
      ⟨[(("w", 0, 0), 1)],
       [(c1K0, E), (c1K1, ⟨[1001], [c1BB], 1⟩)]⟩ := by
  simp [processFeature, assignFid, c1Feature, utmConst, entryAt, touch,
    alookup, alookupD, aset, c1K0, c1K1, c1BB, watershedBB, hlen,
    emptyEntry]

theorem processCollection_none (ds : Int) (utm : ℚ → ℚ → Int)
    (gbb : Option BBox) (minArea : ℚ) (bn : String) (feats : List Feature)
    (seen : List JobKey) :
    processCollection ds utm gbb minArea none ⟨bn, feats⟩ seen =
      emitBatches minArea (List.insertionSort entryAreaGE
        (List.foldl (processFeature ds utm gbb bn false) collInit
          feats).fidIndex) seen := rfl

theorem processCollections_single (ds : Int) (utm : ℚ → ℚ → Int)
    (gbb : Option BBox) (minArea : ℚ)
    (subset : Option (List (String × List Nat))) (coll : Collection)
    (seen s2 : List JobKey) (out : List (ℚ × Batch))
    (h : processCollection ds utm gbb minArea subset coll seen =
      .ok (s2, out)) :
    processCollections ds utm gbb minArea subset [coll] seen = .ok out := by
  simp only [processCollections]
  rw [h]
  simp [processCollections]

theorem batchResult_of_pairs (ds : Int) (utm : ℚ → ℚ → Int)
    (gbb : Option BBox) (minArea : ℚ)
    (subset : Option (List (String × List Nat))) (colls : List Collection)
    (pairs : List (ℚ × Batch))
    (h : processCollections ds utm gbb minArea subset colls [] = .ok pairs) :
    batchIntoWatershedSubsets ds utm gbb minArea subset colls =
      .ok ((List.insertionSort pairAreaGE pairs).map Prod.snd) := by
  unfold batchIntoWatershedSubsets
  rw [h]

theorem c1_sort (l1 : List Nat) (l2 : List BBox) :
    List.insertionSort entryAreaGE
      [(c1K0, (⟨l1, l2, 1001⟩ : Entry)), (c1K1, (⟨[1001], [c1BB], 1⟩ : Entry))] =
      [(c1K0, (⟨l1, l2, 1001⟩ : Entry)),
       (c1K1, (⟨[1001], [c1BB], 1⟩ : Entry))] := by
  simp only [List.insertionSort, List.orderedInsert_nil]
  exact List.orderedInsert_of_le entryAreaGE _ (by norm_num [entryAreaGE])

theorem c1_emit (l1 : List Nat) (l2 : List BBox) (h2 : ¬ l2.length < 3) :
    emitBatches 0 [(c1K0, (⟨l1, l2, 1001⟩ : Entry)),
      (c1K1, (⟨[1001], [c1BB], 1⟩ : Entry))] [] =
      .ok ([c1K0, c1K1],
        [((1001 : ℚ), ⟨c1K0, l1, l2, 1001⟩),
         ((1 : ℚ), ⟨c1K1, [1001], [c1BB], 1⟩)]) := by
  have hinner : emitBatches 0
      [(c1K1, (⟨[1001], [c1BB], 1⟩ : Entry))] [c1K0] =
      .ok ([c1K0, c1K1], [((1 : ℚ), ⟨c1K1, [1001], [c1BB], 1⟩)]) := by
    simp only [emitBatches]
    rw [if_neg (by simp [c1K0, c1K1]),
      if_neg (by intro h; exact absurd h.2 (by norm_num))]
    rfl
  simp only [emitBatches]
  rw [if_neg (List.not_mem_nil _), if_neg (by intro h; exact absurd h.1 h2)]
  show (match emitBatches 0 [(c1K1, (⟨[1001], [c1BB], 1⟩ : Entry))]
      [c1K0] with
    | Except.error u => Except.error u
    | Except.ok (seen2, out) =>
        Except.ok (seen2, ((1001 : ℚ),
          (⟨c1K0, l1, l2, 1001⟩ : Batch)) :: out)) = _
  rw [hinner]

theorem c1_pairsort (b1 b2 : Batch) :
    List.insertionSort pairAreaGE [((1001 : ℚ), b1), ((1 : ℚ), b2)] =
      [((1001 : ℚ), b1), ((1 : ℚ), b2)] := by
  simp only [List.insertionSort, List.orderedInsert_nil]
  exact List.orderedInsert_of_le pairAreaGE _ (by norm_num [pairAreaGE])

/-- C1 counterexample: 1002 small watersheds sharing one 4°×4° grid
cell.  The overflow counter starts a sibling batch only on the bucketing
after the cell batch already holds 1001 FIDs, so the first emitted batch
contains 1001 member regions — more than 1000, refuting the claim. -/
theorem batch_overflow_counterexample :
    emittedBatches (batchIntoWatershedSubsets 4 utmConst none 0 none
      [⟨"w", c1Features⟩]) =
      [⟨c1K0, List.range 1001, List.replicate 1001 c1BB, 1001⟩,
       ⟨c1K1, [1001], [c1BB], 1⟩] ∧
    1000 < (List.range 1001).length := by
  have hstate : List.foldl (processFeature 4 utmConst none "w" false)
      collInit c1Features =
      ⟨[(("w", 0, 0), 1)],
       [(c1K0, ⟨List.range 1001, List.replicate 1001 c1BB, 1001⟩),
        (c1K1, ⟨[1001], [c1BB], 1⟩)]⟩ := by
    have h1 : c1Features =
        (List.range 1001).map c1Feature ++ [c1Feature 1001] := by
      rw [c1Features, show (1002 : Nat) = 1001 + 1 from rfl,
        List.range_succ, List.map_append]
      rfl
    have hfold := c1_fold 1000 (by omega)
    norm_num at hfold
    rw [h1, List.foldl_append, hfold]
    simp only [List.foldl_cons, List.foldl_nil]
    rw [c1_bump _ (by simp [List.length_range])]
  have hstateF : (List.foldl (processFeature 4 utmConst none "w" false)
      collInit c1Features).fidIndex =
      [(c1K0, ⟨List.range 1001, List.replicate 1001 c1BB, 1001⟩),
       (c1K1, ⟨[1001], [c1BB], 1⟩)] := by
    rw [hstate]
  have hcoll : processCollection 4 utmConst none 0 none ⟨"w", c1Features⟩
      [] = .ok ([c1K0, c1K1],
        [((1001 : ℚ),
           ⟨c1K0, List.range 1001, List.replicate 1001 c1BB, 1001⟩),
         ((1 : ℚ), ⟨c1K1, [1001], [c1BB], 1⟩)]) := by
    rw [processCollection_none, hstateF, c1_sort,
      c1_emit _ _ (by intro h; rw [List.length_replicate] at h; omega)]
  have hcolls : processCollections 4 utmConst none 0 none
      [⟨"w", c1Features⟩] [] =
      .ok [((1001 : ℚ),
             ⟨c1K0, List.range 1001, List.replicate 1001 c1BB, 1001⟩),
           ((1 : ℚ), ⟨c1K1, [1001], [c1BB], 1⟩)] := by
    exact processCollections_single 4 utmConst none 0 none _ _ _ _ hcoll
  have hfinal : batchIntoWatershedSubsets 4 utmConst none 0 none
      [⟨"w", c1Features⟩] =
      .ok [⟨c1K0, List.range 1001, List.replicate 1001 c1BB, 1001⟩,
           ⟨c1K1, [1001], [c1BB], 1⟩] := by
    rw [batchResult_of_pairs 4 utmConst none 0 none _ _ hcolls, c1_pairsort]
    rfl
  rw [hfinal]
  exact ⟨rfl, by simp [List.length_range]⟩

section ConcreteWitnesses

attribute [local semireducible] Rat.add Rat.mul Rat.inv Rat.sub

/-- C2 counterexample: `c2Feature`'s envelope crosses the supplied
filter box (it straddles the box's southern edge), yet the batcher keeps
it: the region appears in the emitted batch, refuting "every crossing
region is dropped". -/
theorem filter_box_crossing_kept :
    crossesBox c2Box (watershedBB c2Feature) = true ∧
    emittedBatches (batchIntoWatershedSubsets 4 utmConst (some c2Box) 0
      none [⟨"ws", [c2Feature]⟩]) =
      [⟨JobKey.single "ws" 7 32600, [7], [⟨2, -1, 3, 1⟩], 2⟩] := by
  constructor
  · decide
  · rw [single_feature_run 4 utmConst c2Box "ws" c2Feature (by decide)]
    rw [if_neg (by decide)]
    rfl

/-- C1 amended witness: a one-region run. -/
theorem batch_size_bounded_witness :
    (Batch.mk (JobKey.grid "w1" 0 0 0 32600) [5] [⟨0, 0, 1, 1⟩] 1).fids.length
      ≤ 1001 :=
  batch_size_bounded 4 utmConst none 0 none [⟨"w1", [w1Feature]⟩]
    [⟨JobKey.grid "w1" 0 0 0 32600, [5], [⟨0, 0, 1, 1⟩], 1⟩] rfl
    _ (List.mem_singleton.mpr rfl)

/-- C2 amended witness: a region entirely inside the filter box is kept
with its FID, envelope and area intact. -/
theorem filter_box_drop_condition_witness :
    emittedBatches (batchIntoWatershedSubsets 4 utmConst (some c2Box) 0
      none [⟨"wsb", [c2bFeature]⟩]) =
      [if onDangerousBoundary c2Box (watershedBB c2bFeature) = true then
        ⟨JobKey.single "wsb" c2bFeature.fid
          (utmConst c2bFeature.cx c2bFeature.cy), [], [], 0⟩
      else
        ⟨JobKey.single "wsb" c2bFeature.fid
          (utmConst c2bFeature.cx c2bFeature.cy), [c2bFeature.fid],
          [watershedBB c2bFeature], c2bFeature.area⟩] :=
  filter_box_drop_condition c2Box c2bFeature "wsb" utmConst 4 (by decide)

/-- C10 witness: the dropped far-west singleton still yields an emitted
empty batch. -/
theorem dropped_singleton_emits_empty_batch_witness :
    emittedBatches (batchIntoWatershedSubsets 4 utmConst (some c2Box) 0
      none [⟨"na", [c10Feature]⟩]) =
      [⟨JobKey.single "na" 3 32600, [], [], 0⟩] :=
  dropped_singleton_emits_empty_batch c2Box c10Feature "na" utmConst 4
    (by decide) (by decide)

/-- C8 witness: a two-batch run, largest batch first. -/
theorem batches_sorted_by_area_witness :
    List.Sorted (fun a b : Batch => b.area ≤ a.area)
      [⟨JobKey.single "w8" 3 32600, [3], [⟨4, 4, 5, 5⟩], 2⟩,
       ⟨JobKey.grid "w8" 0 0 0 32600, [1], [⟨0, 0, 1, 1⟩], 1⟩] :=
  batches_sorted_by_area 4 utmConst none 0 none [⟨"w8", [w8a, w8b]⟩]
    [⟨JobKey.single "w8" 3 32600, [3], [⟨4, 4, 5, 5⟩], 2⟩,
     ⟨JobKey.grid "w8" 0 0 0 32600, [1], [⟨0, 0, 1, 1⟩], 1⟩] rfl

end ConcreteWitnesses

end NdrSdr
